import Mathlib

/-!
Verification of the covariance / weight-matrix estimator core of the
`linearmodels` repository.

The system (multi-equation) weight-matrix estimators are embedded from
`linearmodels/system/gmm.py`.  Floating-point arithmetic is modelled as real
arithmetic.  numpy arrays are modelled by `NMat`, a pair of dimensions
together with a total entry function; numpy's in-place broadcasting
multiplication is modelled by `NMat.bmul`, which returns `none` exactly when
numpy would raise a shape error.
-/

noncomputable section

/-- A real matrix with dynamically-typed shape, mirroring a 2-d numpy array.
Entries outside the `rows × cols` range are irrelevant junk. -/
structure NMat where
  rows : ℕ
  cols : ℕ
  entry : ℕ → ℕ → ℝ

/-- The 0 × 0 matrix, used as the out-of-range default for list indexing. -/
def NMat.zero : NMat := ⟨0, 0, fun _ _ => 0⟩

/-- Mean of column `j` of `A` (numpy `A.mean(0)`); `0` for an empty matrix. -/
def colMean (A : NMat) (j : ℕ) : ℝ :=
  (∑ t ∈ Finset.range A.rows, A.entry t j) / A.rows

/-- Subtract the column means from every row (numpy `A - A.mean(0)`). -/
def NMat.centerCols (A : NMat) : NMat :=
  ⟨A.rows, A.cols, fun t j => A.entry t j - colMean A j⟩

/-- A dimension `bd` of an operand broadcasts against a fixed output
dimension `d` iff it equals `d` or is `1` (numpy broadcasting rule for an
in-place operation, whose output shape is fixed). -/
def bcastDimOK (d bd : ℕ) : Prop := bd = d ∨ bd = 1

instance (d bd : ℕ) : Decidable (bcastDimOK d bd) := by
  unfold bcastDimOK; infer_instance

/-- Index into a broadcast operand: a size-1 dimension is read at 0. -/
def bIdx (bd : ℕ) (i : ℕ) : ℕ := if bd = 1 then 0 else i

/-- numpy in-place elementwise product `A *= B`: `B` is broadcast to the
shape of `A`; `none` when the shapes are incompatible (a shape error). -/
def NMat.bmul (A B : NMat) : Option NMat :=
  if bcastDimOK A.rows B.rows ∧ bcastDimOK A.cols B.cols then
    some ⟨A.rows, A.cols, fun i j =>
      A.entry i j * B.entry (bIdx B.rows i) (bIdx B.cols j)⟩
  else none

/-- The value returned by `_debias_scale`: the python function returns either
the scalar `1` or a 2-d array. -/
inductive ScaleVal
  | scalar (v : ℝ)
  | mat (M : NMat)

/-- numpy `A *= scale` where `scale` is either a scalar or an array. -/
def NMat.applyScale (A : NMat) : ScaleVal → Option NMat
  | .scalar v => some ⟨A.rows, A.cols, fun i j => A.entry i j * v⟩
  | .mat B => A.bmul B

/-! ## `linearmodels/system/gmm.py` -/

/-- `HomoskedasticWeightMatrix(center, debiased)` from `gmm.py`. -/
structure HomoskedasticWeightMatrix where
  center : Bool := false
  debiased : Bool := false

/-- `repeat(nvar, nvar)` for `nvar = [a.shape[1] for a in x]`: each equation's
regressor count, repeated that many times. -/
def nvarRep (p : List ℕ) : List ℕ :=
  p.flatMap fun a => List.replicate a a

/-- The matrix built by `_debias_scale` when `debiased` is set:
`nobs / (nobs - sqrt(nvar) @ sqrt(nvar).T)` with `nvar = repeat(nvar, nvar)`. -/
def scaleMatOf (nobs : ℕ) (x : List NMat) : NMat :=
  let rep := nvarRep (x.map NMat.cols)
  ⟨rep.length, rep.length, fun a b =>
    (nobs : ℝ) /
      (nobs - Real.sqrt (rep.getD a 0) * Real.sqrt (rep.getD b 0))⟩

/-- `HomoskedasticWeightMatrix._debias_scale(nobs, x)` from `gmm.py`. -/
def HomoskedasticWeightMatrix.debias_scale (w : HomoskedasticWeightMatrix)
    (nobs : ℕ) (x : List NMat) : ScaleVal :=
  if w.debiased = false then .scalar 1 else .mat (scaleMatOf nobs x)

/-- The centered second-moment matrix `(eps - eps.mean(0)).T @ (eps - eps.mean(0)) / nobs`
computed at the start of `HomoskedasticWeightMatrix.sigma`. -/
def rawSigmaN (eps : NMat) : NMat :=
  ⟨eps.cols, eps.cols, fun i j =>
    (∑ t ∈ Finset.range eps.rows,
      eps.centerCols.entry t i * eps.centerCols.entry t j) / eps.rows⟩

/-- `HomoskedasticWeightMatrix.sigma(eps, x)` from `gmm.py`: centers the
residuals, forms their second moment, then multiplies in-place by the debias
scale; `none` when that in-place multiply is a numpy shape error. -/
def HomoskedasticWeightMatrix.sigma (w : HomoskedasticWeightMatrix)
    (eps : NMat) (x : List NMat) : Option NMat :=
  (rawSigmaN eps).applyScale (w.debias_scale eps.rows x)

/-- Map a flat column index into the per-equation block structure given by the
per-equation column counts `q`: returns (equation, offset inside equation). -/
def blockOf : List ℕ → ℕ → ℕ × ℕ
  | [], a => (0, a)
  | q :: qs, a =>
    if a < q then (0, a)
    else
      let r := blockOf qs (a - q)
      (r.1 + 1, r.2)

/-- Modelled from the spec: `blocked_inner_prod` (from
`linearmodels/system/_utility`, not under `src/`) computes
`block_diag(Z)' (Sigma ⊗ I_n) block_diag(Z)` blockwise: the (i, j) equation
block of the result is `Z_i' Z_j * Sigma[i, j]`, assembled without
materialising the Kronecker product. -/
def blocked_inner_prod (z : List NMat) (sigma : NMat) : NMat :=
  let q := z.map NMat.cols
  let nobs := (z.getD 0 NMat.zero).rows
  ⟨q.sum, q.sum, fun a b =>
    let ia := blockOf q a
    let jb := blockOf q b
    sigma.entry ia.1 jb.1 *
      ∑ t ∈ Finset.range nobs,
        (z.getD ia.1 NMat.zero).entry t ia.2 *
          (z.getD jb.1 NMat.zero).entry t jb.2⟩

/-- `HomoskedasticWeightMatrix.weight_matrix(x, z, eps, sigma=None)` from
`gmm.py`: `blocked_inner_prod(z, sigma) / nobs` with `sigma` defaulting to
`self.sigma(eps, x)`. -/
def HomoskedasticWeightMatrix.weight_matrix (w : HomoskedasticWeightMatrix)
    (x z : List NMat) (eps : NMat) (sigmaArg : Option NMat) : Option NMat :=
  let nobs := (z.getD 0 NMat.zero).rows
  let sig : Option NMat :=
    match sigmaArg with
    | some s => some s
    | none => w.sigma eps x
  sig.map fun s =>
    let b := blocked_inner_prod z s
    ⟨b.rows, b.cols, fun i j => b.entry i j / nobs⟩

/-- `HeteroskedasticWeightMatrix(center, debiased)` from `gmm.py`
(a subclass of `HomoskedasticWeightMatrix`). -/
structure HeteroskedasticWeightMatrix where
  center : Bool := false
  debiased : Bool := false

/-- The stacked score matrix `ze` built inside
`HeteroskedasticWeightMatrix.weight_matrix`: the horizontal concatenation over
equations `i` of `z[i] * eps[:, [i]]`. -/
def hetZe (z : List NMat) (eps : NMat) (nobs : ℕ) : NMat :=
  let q := z.map NMat.cols
  ⟨nobs, q.sum, fun t a =>
    let ia := blockOf q a
    (z.getD ia.1 NMat.zero).entry t ia.2 * eps.entry t ia.1⟩

/-- `ze.T @ ze / nobs` after the optional centering step
(`mu = ze.mean(0) if center else 0; ze -= mu`). -/
def hetMoment (center : Bool) (z : List NMat) (eps : NMat) (nobs : ℕ) : NMat :=
  let ze := hetZe z eps nobs
  let zeC : NMat := ⟨ze.rows, ze.cols, fun t a =>
    ze.entry t a - (if center then colMean ze a else 0)⟩
  ⟨ze.cols, ze.cols, fun a b =>
    (∑ t ∈ Finset.range nobs, zeC.entry t a * zeC.entry t b) / nobs⟩

/-- `HeteroskedasticWeightMatrix.weight_matrix(x, z, eps, sigma=None)` from
`gmm.py` (the `sigma` keyword is accepted but never read by the body):
the moment matrix of the stacked scores, multiplied in-place by the debias
scale; `none` when that multiply is a numpy shape error. -/
def HeteroskedasticWeightMatrix.weight_matrix (w : HeteroskedasticWeightMatrix)
    (x z : List NMat) (eps : NMat) (_sigmaArg : Option NMat) : Option NMat :=
  let nobs := (x.getD 0 NMat.zero).rows
  (hetMoment w.center z eps nobs).applyScale
    (HomoskedasticWeightMatrix.debias_scale ⟨w.center, w.debiased⟩ nobs x)

/-- The debiased scale factor exactly as claim C1 words it: the entry for
equation pair `(i, j)` is `n / (n - sqrt(p_i * p_j) * sqrt(p_i * p_j))`,
applied to the blocks of the `k × k` matrix `sigma` indexed by equation
(for `sigma` the blocks are single entries). -/
def specSigmaC1 (debiased : Bool) (eps : NMat) (x : List NMat) : NMat :=
  let n := eps.rows
  let p := x.map NMat.cols
  ⟨eps.cols, eps.cols, fun i j =>
    (rawSigmaN eps).entry i j *
      (if debiased then
        (n : ℝ) / (n - Real.sqrt ((p.getD i 0 : ℕ) * (p.getD j 0 : ℕ)) *
          Real.sqrt ((p.getD i 0 : ℕ) * (p.getD j 0 : ℕ)))
      else 1)⟩

/-! ## Single-equation covariance estimators

The module `panel/iv/covariance.py` is not under `src/` (only its test file
is), so everything in this section is modelled from the spec, faithful to the
spec's words (§3, §4.1–§4.6, §7). -/

/-- Modelled from the spec: `kernel_weight_bartlett` (missing from `src/`),
§4.5: `w(i) = 1 - i/(bw+1)`. -/
def kernel_weight_bartlett (bw : ℕ) (i : ℕ) : ℝ :=
  1 - (i : ℝ) / (bw + 1)

/-- Modelled from the spec: `kernel_weight_parzen` (missing from `src/`),
§4.5: for `z = i/(bw+1)`, `w(i) = 1 - 6 z^2 + 6 z^3` for `z ≤ 0.5`, else
`2 (1-z)^3`. -/
def kernel_weight_parzen (bw : ℕ) (i : ℕ) : ℝ :=
  let z : ℝ := (i : ℝ) / (bw + 1)
  if z ≤ 1 / 2 then 1 - 6 * z ^ 2 + 6 * z ^ 3 else 2 * (1 - z) ^ 3

/-- Modelled from the spec: `kernel_weight_quadratic_spectral` (missing from
`src/`), §4.5: `w(0) = 1`; for `i ≥ 1`, `q = 6 π i / (5 bw)`,
`w(i) = 3/q^2 (sin(q)/q - cos(q))`. -/
def kernel_weight_quadratic_spectral (bw : ℝ) (i : ℕ) : ℝ :=
  if i = 0 then 1
  else
    let q : ℝ := 6 * Real.pi * i / (5 * bw)
    3 / q ^ 2 * (Real.sin q / q - Real.cos q)

/-- Lower-casing of a kernel name, used for the case-insensitive matching
of §4.4. -/
def lowerName (s : String) : String := String.mk (s.data.map Char.toLower)

/-- Modelled from the spec: the kernel-name lookup of `KernelCovariance`
(missing from `src/`), §4.4: case-insensitive canonical and alias names
(bartlett/newey-west; parzen/gallant; quadratic-spectral/andrews/qs) mapped to
the weight function; `none` for an unknown name. -/
def kernelWeightFun (name : String) : Option (ℕ → ℕ → ℝ) :=
  let k := lowerName name
  if k = "bartlett" ∨ k = "newey-west" then some kernel_weight_bartlett
  else if k = "parzen" ∨ k = "gallant" then some kernel_weight_parzen
  else if k = "qs" ∨ k = "andrews" ∨ k = "quadratic-spectral" then
    some fun bw i => kernel_weight_quadratic_spectral (bw : ℝ) i
  else none

/-- Modelled from the spec: the instrument projection §3,
`xhat = Z (Z'Z)⁻¹ Z' X`. -/
def xhatOf {n p q : ℕ} (x : Matrix (Fin n) (Fin p) ℝ)
    (z : Matrix (Fin n) (Fin q) ℝ) : Matrix (Fin n) (Fin p) ℝ :=
  z * (z.transpose * z)⁻¹ * z.transpose * x

/-- Modelled from the spec: the residuals §3, `eps = y - X β`. -/
def residOf {n p : ℕ} (x : Matrix (Fin n) (Fin p) ℝ) (y : Fin n → ℝ)
    (β : Fin p → ℝ) : Fin n → ℝ :=
  fun t => y t - ∑ a, x t a * β a

/-- Modelled from the spec: the per-observation score rows §4.2, `xhat ⊙ eps`
(each row of `xhat` scaled by that observation's residual). -/
def scoreOf {n p q : ℕ} (x : Matrix (Fin n) (Fin p) ℝ) (y : Fin n → ℝ)
    (z : Matrix (Fin n) (Fin q) ℝ) (β : Fin p → ℝ) : Fin n → Fin p → ℝ :=
  fun t a => xhatOf x z t a * residOf x y β t

/-- Modelled from the spec: `HeteroskedasticCovariance.s` (missing from
`src/`), §4.2: `(xhat ⊙ eps)' (xhat ⊙ eps) / n`, divided by `n - p` instead
when debiased. -/
def HeteroskedasticCovariance.s {n p q : ℕ} (debiased : Bool)
    (x : Matrix (Fin n) (Fin p) ℝ) (y : Fin n → ℝ)
    (z : Matrix (Fin n) (Fin q) ℝ) (β : Fin p → ℝ) :
    Matrix (Fin p) (Fin p) ℝ :=
  fun a b =>
    (∑ t, scoreOf x y z β t a * scoreOf x y z β t b) /
      (if debiased then (n : ℝ) - p else (n : ℝ))

/-- The score rows re-indexed over `ℕ` (zero outside `0..n-1`), used to write
the lagged cross products of the HAC estimator. -/
def gPad {n p q : ℕ} (x : Matrix (Fin n) (Fin p) ℝ) (y : Fin n → ℝ)
    (z : Matrix (Fin n) (Fin q) ℝ) (β : Fin p → ℝ) : ℕ → Fin p → ℝ :=
  fun t a => if h : t < n then scoreOf x y z β ⟨t, h⟩ a else 0

/-- Modelled from the spec: the moment matrix of `KernelCovariance` (missing
from `src/`), §4.4, given a weight function `wf` and integer bandwidth `bw`:
`s = Σ_t g_t' g_t / n + Σ_{i=1}^{bw} w(i) (Σ_{t≥i} g_t' g_{t-i} + g_{t-i}' g_t) / n`,
the whole matrix scaled by `n/(n-p)` when debiased. -/
def KernelCovariance.sOf {n p q : ℕ} (wf : ℕ → ℕ → ℝ) (bw : ℕ)
    (debiased : Bool) (x : Matrix (Fin n) (Fin p) ℝ) (y : Fin n → ℝ)
    (z : Matrix (Fin n) (Fin q) ℝ) (β : Fin p → ℝ) :
    Matrix (Fin p) (Fin p) ℝ :=
  let g := gPad x y z β
  let base : Matrix (Fin p) (Fin p) ℝ := fun a b =>
    (∑ t ∈ Finset.range n, g t a * g t b) / n +
      ∑ i ∈ Finset.Icc 1 bw, wf bw i *
        ((∑ t ∈ Finset.Ico i n, (g t a * g (t - i) b + g (t - i) a * g t b)) / n)
  if debiased then fun a b => (n : ℝ) / ((n : ℝ) - p) * base a b else base

/-- Modelled from the spec: `KernelCovariance.s` (missing from `src/`), §4.4:
the kernel name is resolved to a weight function (a `ValueError` — here
`none` — for an unknown name) and the HAC moment matrix is formed. -/
def KernelCovariance.s {n p q : ℕ} (x : Matrix (Fin n) (Fin p) ℝ)
    (y : Fin n → ℝ) (z : Matrix (Fin n) (Fin q) ℝ) (β : Fin p → ℝ)
    (name : String) (bw : ℕ) (debiased : Bool) :
    Option (Matrix (Fin p) (Fin p) ℝ) :=
  (kernelWeightFun name).map fun wf => KernelCovariance.sOf wf bw debiased x y z β

/-- Modelled from the spec: the set of distinct cluster labels §4.3
(`G` = its cardinality). -/
def clusterGroups {n : ℕ} (cl : Fin n → ℕ) : Finset ℕ :=
  Finset.image cl Finset.univ

/-- Modelled from the spec: the total score of cluster `g` §4.3 (the sum of
the score rows of the observations in `g`). -/
def groupTotal {n p q : ℕ} (x : Matrix (Fin n) (Fin p) ℝ) (y : Fin n → ℝ)
    (z : Matrix (Fin n) (Fin q) ℝ) (β : Fin p → ℝ) (cl : Fin n → ℕ)
    (g : ℕ) : Fin p → ℝ :=
  fun a => ∑ t ∈ Finset.univ.filter (fun t => cl t = g), scoreOf x y z β t a

/-- Modelled from the spec: the undebiased clustered moment matrix §4.3,
`Σ_g total_g ⊗ total_g / n`. -/
def OneWayClusteredCovariance.sBase {n p q : ℕ}
    (x : Matrix (Fin n) (Fin p) ℝ) (y : Fin n → ℝ)
    (z : Matrix (Fin n) (Fin q) ℝ) (β : Fin p → ℝ) (cl : Fin n → ℕ) :
    Matrix (Fin p) (Fin p) ℝ :=
  fun a b =>
    (∑ g ∈ clusterGroups cl,
      groupTotal x y z β cl g a * groupTotal x y z β cl g b) / n

/-- Modelled from the spec: `OneWayClusteredCovariance.s` (missing from
`src/`), §4.3: the clustered moment matrix, multiplied when debiased by the
compound factor `((n-1)/(n-p)) * (G/(G-1))`. -/
def OneWayClusteredCovariance.s {n p q : ℕ} (debiased : Bool)
    (x : Matrix (Fin n) (Fin p) ℝ) (y : Fin n → ℝ)
    (z : Matrix (Fin n) (Fin q) ℝ) (β : Fin p → ℝ) (cl : Fin n → ℕ) :
    Matrix (Fin p) (Fin p) ℝ :=
  if debiased then
    fun a b =>
      OneWayClusteredCovariance.sBase x y z β cl a b *
        (((n : ℝ) - 1) / ((n : ℝ) - p)) *
        (((clusterGroups cl).card : ℝ) / ((clusterGroups cl).card - 1))
  else OneWayClusteredCovariance.sBase x y z β cl

/-- Modelled from the spec: `v` §4.1, the κ-weighted mixture
`κ (xhat' xhat)/n + (1-κ) (x' x)/n`. -/
def vOf {n p q : ℕ} (kappa : ℝ) (x : Matrix (Fin n) (Fin p) ℝ)
    (z : Matrix (Fin n) (Fin q) ℝ) : Matrix (Fin p) (Fin p) ℝ :=
  fun a b =>
    (kappa * ∑ t, xhatOf x z t a * xhatOf x z t b +
      (1 - kappa) * ∑ t, x t a * x t b) / n

/-- Modelled from the spec: `OneWayClusteredCovariance.cov` (missing from
`src/`), §4.3 and §4.1: the sandwich `v⁻¹ s v⁻¹ / n`. -/
def OneWayClusteredCovariance.cov {n p q : ℕ} (debiased : Bool) (kappa : ℝ)
    (x : Matrix (Fin n) (Fin p) ℝ) (y : Fin n → ℝ)
    (z : Matrix (Fin n) (Fin q) ℝ) (β : Fin p → ℝ) (cl : Fin n → ℕ) :
    Matrix (Fin p) (Fin p) ℝ :=
  ((n : ℝ))⁻¹ •
    ((vOf kappa x z)⁻¹ * OneWayClusteredCovariance.s debiased x y z β cl *
      (vOf kappa x z)⁻¹)

/-! ## Configuration mappings and constructor validation -/

/-- A value stored in an estimator's `config` dictionary. -/
inductive ConfigVal
  | bool (b : Bool)
  | str (s : String)
  | natList (l : List ℕ)
  | num (r : ℝ)

/-- `HomoskedasticWeightMatrix.config` from `gmm.py`:
`{'center': self._center, 'debiased': self._debiased}`. -/
def HomoskedasticWeightMatrix.config (w : HomoskedasticWeightMatrix) :
    List (String × ConfigVal) :=
  [("center", .bool w.center), ("debiased", .bool w.debiased)]

/-- `HeteroskedasticWeightMatrix.config`, inherited unchanged from
`HomoskedasticWeightMatrix` in `gmm.py`. -/
def HeteroskedasticWeightMatrix.config (w : HeteroskedasticWeightMatrix) :
    List (String × ConfigVal) :=
  [("center", .bool w.center), ("debiased", .bool w.debiased)]

/-- Modelled from the spec: `HomoskedasticCovariance.config` (missing from
`src/`), §4.1/§6 and the equality asserted by
`TestHomoskedasticCovariance.test_asymptotic`: `{'debiased', 'name'}`. -/
def HomoskedasticCovariance.config (debiased : Bool) :
    List (String × ConfigVal) :=
  [("debiased", .bool debiased), ("name", .str "HomoskedasticCovariance")]

/-- Modelled from the spec: `HeteroskedasticCovariance.config` (missing from
`src/`). -/
def HeteroskedasticCovariance.config (debiased : Bool) :
    List (String × ConfigVal) :=
  [("debiased", .bool debiased), ("name", .str "HeteroskedasticCovariance")]

/-- Modelled from the spec: `OneWayClusteredCovariance.config` (missing from
`src/`); cluster estimators add their parameters to the mapping (§6). -/
def OneWayClusteredCovariance.config (debiased : Bool) (clusters : List ℕ) :
    List (String × ConfigVal) :=
  [("debiased", .bool debiased), ("name", .str "OneWayClusteredCovariance"),
    ("clusters", .natList clusters)]

/-- Modelled from the spec: `KernelCovariance.config` (missing from `src/`);
kernel/bandwidth estimators add their parameters to the mapping (§6). -/
def KernelCovariance.config (debiased : Bool) (kernel : String) (bw : ℝ) :
    List (String × ConfigVal) :=
  [("debiased", .bool debiased), ("name", .str "KernelCovariance"),
    ("kernel", .str kernel), ("bandwidth", .num bw)]

/-- The `'name'` entry of a config mapping, when present and a string. -/
def configName (c : List (String × ConfigVal)) : Option String :=
  match c.lookup "name" with
  | some (.str s) => some s
  | _ => none

/-- The keys of a config mapping. -/
def configKeys (c : List (String × ConfigVal)) : List String :=
  c.map Prod.fst

/-- The error taxonomy of spec §7: `ValidationError` for dimension/length
mismatches, `ConfigurationError` for an unknown kernel name (raised as a
`ValueError` subclass). -/
inductive EstError
  | validation
  | configuration
deriving DecidableEq

/-- Modelled from the spec: the eager constructor validation of every
single-equation estimator §4.1: `x.rows == y.rows == z.rows` and
`len(params) == x.cols`. -/
def dimsOK (x y z : NMat) (params : List ℝ) : Prop :=
  x.rows = y.rows ∧ x.rows = z.rows ∧ params.length = x.cols

instance (x y z : NMat) (params : List ℝ) : Decidable (dimsOK x y z params) := by
  unfold dimsOK; infer_instance

/-- Modelled from the spec: the `HomoskedasticCovariance` constructor
(missing from `src/`), §4.1/§7: validates eagerly, producing no estimator on
a dimension mismatch. -/
def HomoskedasticCovariance.create (x y z : NMat) (params : List ℝ)
    (_debiased : Bool) (_kappa : ℝ) : Except EstError Unit :=
  if dimsOK x y z params then .ok () else .error .validation

/-- Modelled from the spec: the `HeteroskedasticCovariance` constructor
(missing from `src/`), inheriting §4.1's validation. -/
def HeteroskedasticCovariance.create (x y z : NMat) (params : List ℝ)
    (_debiased : Bool) (_kappa : ℝ) : Except EstError Unit :=
  if dimsOK x y z params then .ok () else .error .validation

/-- Modelled from the spec: the `OneWayClusteredCovariance` constructor
(missing from `src/`), §4.3: additionally fails with a `ValidationError` when
the cluster vector's length differs from the observation count. -/
def OneWayClusteredCovariance.create (x y z : NMat) (params : List ℝ)
    (clusters : List ℕ) (_debiased : Bool) (_kappa : ℝ) :
    Except EstError Unit :=
  if dimsOK x y z params then
    if clusters.length = x.rows then .ok () else .error .validation
  else .error .validation

/-- Modelled from the spec: the `KernelCovariance` constructor (missing from
`src/`), §4.4/§7: the inherited shape validation, then the kernel-name check
(a `ValueError` for an unknown name). -/
def KernelCovariance.create (x y z : NMat) (params : List ℝ) (name : String)
    (_bw : Option ℝ) (_debiased : Bool) : Except EstError Unit :=
  if dimsOK x y z params then
    if (kernelWeightFun name).isSome then .ok () else .error .configuration
  else .error .validation

/-! ## Automatic bandwidth selection -/

/-- The `i`-th sample autocovariance term of the score series `u`:
`Σ_{t ≥ i} u_t u_{t-i} / n`. -/
def autocovL (u : List ℝ) (i : ℕ) : ℝ :=
  (∑ t ∈ Finset.Ico i u.length, u.getD t 0 * u.getD (t - i) 0) / u.length

/-- The long-run variance estimate `s(0) = σ(0) + 2 Σ_i σ(i)` entering the
plug-in rule. -/
def s0Of (u : List ℝ) : ℝ :=
  autocovL u 0 + 2 * ∑ i ∈ Finset.Icc 1 (u.length - 1), autocovL u i

/-- The weighted sum `s(q) = 2 Σ_i i^q σ(i)` entering the plug-in rule. -/
def sqOf (q : ℕ) (u : List ℝ) : ℝ :=
  2 * ∑ i ∈ Finset.Icc 1 (u.length - 1), (i : ℝ) ^ q * autocovL u i

/-- Modelled from the spec: the kernel-family table of the automatic
bandwidth selector §4.6 (missing from `src/`): each accepted kernel family
has a characteristic exponent `q` and constant `c` of the Newey–West plug-in
rule; `none` for an unknown name. -/
def kernelQC (name : String) : Option (ℕ × ℝ) :=
  if lowerName name = "bartlett" ∨ lowerName name = "newey-west" then
    some (1, 1.1447)
  else if lowerName name = "parzen" ∨ lowerName name = "gallant" then
    some (2, 2.6614)
  else if lowerName name = "qs" ∨ lowerName name = "andrews" ∨
      lowerName name = "quadratic-spectral" then
    some (2, 1.3221)
  else none

/-- The plug-in bandwidth value
`c * ((s(q)/s(0))^2)^(1/(2q+1)) * n^(1/(2q+1))`. -/
def bandwidthVal (q : ℕ) (c : ℝ) (u : List ℝ) : ℝ :=
  c * ((sqOf q u / s0Of u) ^ 2) ^ ((1 : ℝ) / (2 * q + 1)) *
    (u.length : ℝ) ^ ((1 : ℝ) / (2 * q + 1))

/-- Modelled from the spec: `kernel_optimal_bandwidth` (missing from `src/`),
§4.6: a standard Newey–West-type plug-in rule on the sample autocovariances
of `u` (the spec fixes only the contract, not the constants; all sample
lags are used here), rejecting an unknown kernel name. -/
def kernel_optimal_bandwidth (u : List ℝ) (name : String) :
    Except EstError ℝ :=
  match kernelQC name with
  | none => .error .configuration
  | some (q, c) => .ok (bandwidthVal q c u)

/-- The heteroskedastic weight matrix exactly as claim C3 words it:
`ze' ze / n` with the entry in equation-pair block `(i, j)` additionally
scaled by `n / (n - sqrt(p_i * p_j) * sqrt(p_i * p_j))` when debiased, where
the blocks of the `(Σ q_i) × (Σ q_i)` matrix are indexed by equation via the
instrument column counts. -/
def specWeightC3 (center debiased : Bool) (x z : List NMat) (eps : NMat) : NMat :=
  let nobs := (x.getD 0 NMat.zero).rows
  let q := z.map NMat.cols
  let p := x.map NMat.cols
  ⟨q.sum, q.sum, fun a b =>
    (hetMoment center z eps nobs).entry a b *
      (if debiased then
        (nobs : ℝ) /
          (nobs - Real.sqrt ((p.getD (blockOf q a).1 0 : ℕ) * (p.getD (blockOf q b).1 0 : ℕ)) *
            Real.sqrt ((p.getD (blockOf q a).1 0 : ℕ) * (p.getD (blockOf q b).1 0 : ℕ)))
      else 1)⟩

/-! ## Concrete example inputs -/

/-- A 2 × 2 residual matrix: rows `(1, 1)` and `(-1, -1)` (column means 0). -/
def exEps : NMat := ⟨2, 2, fun t _ => if t = 0 then 1 else -1⟩

/-- A two-equation regressor list with column counts `[1, 0]`. -/
def exX : List NMat := [⟨2, 1, fun _ _ => 0⟩, ⟨2, 0, fun _ _ => 0⟩]

/-- A two-equation instrument list: two 2 × 1 all-ones matrices. -/
def exZ : List NMat := [⟨2, 1, fun _ _ => 1⟩, ⟨2, 1, fun _ _ => 1⟩]

/-- A 2 × 1 zero matrix. -/
def exA : NMat := ⟨2, 1, fun _ _ => 0⟩

/-- A 3 × 1 zero matrix (row count clashing with `exA`). -/
def exB : NMat := ⟨3, 1, fun _ _ => 0⟩

/-- A 1 × 1 zero matrix. -/
def exC : NMat := ⟨1, 1, fun _ _ => 0⟩

/-- The reference weight function written inline in `test_kernel_parzen` of
`src/panel/iv/tests/test_covariance.py`: for `z = i/(k+1)`, it computes
`2 * (1 - z ** 3)` when `z > 0.5` (note: not `2 * (1 - z) ** 3`) and
`1 - 6 z^2 + 6 z^3` otherwise. -/
def testParzenRefW (k i : ℕ) : ℝ :=
  let z : ℝ := (i : ℝ) / ((k : ℝ) + 1)
  if 1 / 2 < z then 2 * (1 - z ^ 3) else 1 - 6 * z ^ 2 + 6 * z ^ 3

/-! ## Helper lemmas -/

theorem NMat.applyScale_one (A : NMat) : A.applyScale (.scalar 1) = some A := by
  obtain ⟨r, c, f⟩ := A
  simp [NMat.applyScale]

theorem colMean_centerCols (A : NMat) (j : ℕ) : colMean A.centerCols j = 0 := by
  rcases Nat.eq_zero_or_pos A.rows with h | h
  · simp [colMean, NMat.centerCols, h]
  · have hn : (A.rows : ℝ) ≠ 0 := by exact_mod_cast h.ne'
    simp only [colMean, NMat.centerCols, Finset.sum_sub_distrib,
      Finset.sum_const, Finset.card_range, nsmul_eq_mul]
    rw [mul_comm, div_mul_cancel₀ _ hn]
    simp

theorem centerCols_idem (A : NMat) : A.centerCols.centerCols = A.centerCols := by
  show NMat.mk A.centerCols.rows A.centerCols.cols
      (fun t j => A.centerCols.entry t j - colMean A.centerCols j) = A.centerCols
  simp only [colMean_centerCols, sub_zero]

theorem hom_sigma_false (c : Bool) (eps : NMat) (x : List NMat) :
    HomoskedasticWeightMatrix.sigma ⟨c, false⟩ eps x = some (rawSigmaN eps) := by
  show (rawSigmaN eps).applyScale _ = _
  rw [show HomoskedasticWeightMatrix.debias_scale ⟨c, false⟩ eps.rows x =
    .scalar 1 from rfl]
  exact NMat.applyScale_one _

theorem hom_sigma_true (c : Bool) (eps : NMat) (x : List NMat) :
    HomoskedasticWeightMatrix.sigma ⟨c, true⟩ eps x =
      if (nvarRep (x.map NMat.cols)).length = eps.cols ∨
          (nvarRep (x.map NMat.cols)).length = 1 then
        some ⟨eps.cols, eps.cols, fun i j =>
          (rawSigmaN eps).entry i j *
            ((eps.rows : ℝ) /
              (eps.rows -
                Real.sqrt ((nvarRep (x.map NMat.cols)).getD
                  (bIdx (nvarRep (x.map NMat.cols)).length i) 0) *
                Real.sqrt ((nvarRep (x.map NMat.cols)).getD
                  (bIdx (nvarRep (x.map NMat.cols)).length j) 0)))⟩
      else none := by
  show (rawSigmaN eps).applyScale (.mat (scaleMatOf eps.rows x)) = _
  rw [NMat.applyScale, NMat.bmul]
  simp only [bcastDimOK, rawSigmaN, scaleMatOf, and_self]

theorem NMat.centerCols_rows (A : NMat) : A.centerCols.rows = A.rows := rfl

theorem NMat.centerCols_cols (A : NMat) : A.centerCols.cols = A.cols := rfl

theorem rawSigmaN_centerCols (eps : NMat) :
    rawSigmaN eps.centerCols = rawSigmaN eps := by
  unfold rawSigmaN
  rw [centerCols_idem, NMat.centerCols_rows, NMat.centerCols_cols]

theorem nvarRep_length (p : List ℕ) : (nvarRep p).length = p.sum := by
  induction p with
  | nil => rfl
  | cons a p ih => simp only [nvarRep, List.flatMap_cons, List.length_append,
      List.length_replicate, List.sum_cons] at ih ⊢; rw [ih]

theorem isSome_ite_some {α : Type} (c : Prop) [Decidable c] (a : α) :
    (if c then some a else none).isSome = true ↔ c := by
  split_ifs with h <;> simp [h]

theorem het_weight_false (c : Bool) (x z : List NMat) (eps : NMat)
    (sArg : Option NMat) :
    HeteroskedasticWeightMatrix.weight_matrix ⟨c, false⟩ x z eps sArg =
      some (hetMoment c z eps (x.getD 0 NMat.zero).rows) := by
  show (hetMoment c z eps (x.getD 0 NMat.zero).rows).applyScale
    (HomoskedasticWeightMatrix.debias_scale ⟨c, false⟩
      (x.getD 0 NMat.zero).rows x) = _
  rw [show HomoskedasticWeightMatrix.debias_scale ⟨c, false⟩
    (x.getD 0 NMat.zero).rows x = .scalar 1 from rfl]
  exact NMat.applyScale_one _

theorem het_weight_true (c : Bool) (x z : List NMat) (eps : NMat)
    (sArg : Option NMat) :
    HeteroskedasticWeightMatrix.weight_matrix ⟨c, true⟩ x z eps sArg =
      if (nvarRep (x.map NMat.cols)).length = (z.map NMat.cols).sum ∨
          (nvarRep (x.map NMat.cols)).length = 1 then
        some ⟨(z.map NMat.cols).sum, (z.map NMat.cols).sum, fun a b =>
          (hetMoment c z eps (x.getD 0 NMat.zero).rows).entry a b *
            (((x.getD 0 NMat.zero).rows : ℝ) /
              ((x.getD 0 NMat.zero).rows -
                Real.sqrt ((nvarRep (x.map NMat.cols)).getD
                  (bIdx (nvarRep (x.map NMat.cols)).length a) 0) *
                Real.sqrt ((nvarRep (x.map NMat.cols)).getD
                  (bIdx (nvarRep (x.map NMat.cols)).length b) 0)))⟩
      else none := by
  show (hetMoment c z eps _).applyScale
    (.mat (scaleMatOf (x.getD 0 NMat.zero).rows x)) = _
  rw [NMat.applyScale, NMat.bmul]
  by_cases h : (nvarRep (x.map NMat.cols)).length = (z.map NMat.cols).sum ∨
      (nvarRep (x.map NMat.cols)).length = 1
  · rw [if_pos (show bcastDimOK (hetMoment c z eps (x.getD 0 NMat.zero).rows).rows
        (scaleMatOf (x.getD 0 NMat.zero).rows x).rows ∧
        bcastDimOK (hetMoment c z eps (x.getD 0 NMat.zero).rows).cols
        (scaleMatOf (x.getD 0 NMat.zero).rows x).cols from ⟨h, h⟩), if_pos h]
    rfl
  · rw [if_neg (show ¬(bcastDimOK (hetMoment c z eps (x.getD 0 NMat.zero).rows).rows
        (scaleMatOf (x.getD 0 NMat.zero).rows x).rows ∧
        bcastDimOK (hetMoment c z eps (x.getD 0 NMat.zero).rows).cols
        (scaleMatOf (x.getD 0 NMat.zero).rows x).cols) from fun hc => h hc.1),
      if_neg h]

/-! ## Claims -/

/-- C1 (counterexample): at `eps = exEps` (2 observations, 2 equations) and
`x = exX` (regressor column counts `[1, 0]`), the debiased
`HomoskedasticWeightMatrix.sigma` has entry `(0, 1)` equal to `2` — every
entry is scaled by the broadcast 1 × 1 debias matrix `n/(n-1) = 2` — whereas
the claim's per-equation-pair factor `n/(n - sqrt(p_0 p_1) sqrt(p_0 p_1)) =
2/(2-0) = 1` leaves that entry at `1`; so the claim as stated is false. -/
theorem claim_C1_counterexample :
    (HomoskedasticWeightMatrix.sigma ⟨false, true⟩ exEps exX).map
      (fun A => A.entry 0 1) = some 2 ∧
    (specSigmaC1 true exEps exX).entry 0 1 = 1 ∧
    (HomoskedasticWeightMatrix.sigma ⟨false, true⟩ exEps exX).map
      (fun A => A.entry 0 1) ≠
      some ((specSigmaC1 true exEps exX).entry 0 1) := by
  have hmean : ∀ j, colMean exEps j = 0 := by
    intro j
    norm_num [colMean, exEps, Finset.sum_range_succ]
  have hraw : (rawSigmaN exEps).entry 0 1 = 1 := by
    show (∑ t ∈ Finset.range exEps.rows,
      exEps.centerCols.entry t 0 * exEps.centerCols.entry t 1) /
        (exEps.rows : ℝ) = 1
    simp only [NMat.centerCols, hmean, sub_zero]
    norm_num [exEps, Finset.sum_range_succ]
  have hrep : nvarRep (exX.map NMat.cols) = [1] := rfl
  have h2 : (HomoskedasticWeightMatrix.sigma ⟨false, true⟩ exEps exX).map
      (fun A => A.entry 0 1) = some 2 := by
    rw [hom_sigma_true, hrep, if_pos (show ([1] : List ℕ).length = exEps.cols ∨
      ([1] : List ℕ).length = 1 from Or.inr rfl)]
    simp only [Option.map_some']
    rw [hraw]
    norm_num [bIdx, exEps, Real.sqrt_one]
  have h1 : (specSigmaC1 true exEps exX).entry 0 1 = 1 := by
    show (rawSigmaN exEps).entry 0 1 *
      ((exEps.rows : ℝ) /
        (exEps.rows -
          Real.sqrt (((exX.map NMat.cols).getD 0 0 : ℕ) * ((exX.map NMat.cols).getD 1 0 : ℕ)) *
          Real.sqrt (((exX.map NMat.cols).getD 0 0 : ℕ) * ((exX.map NMat.cols).getD 1 0 : ℕ)))) = 1
    rw [hraw]
    norm_num [exEps, exX, Real.sqrt_zero]
  refine ⟨h2, h1, ?_⟩
  rw [h2, h1]
  norm_num

/-- C1 (amended): `HomoskedasticWeightMatrix.sigma` is the mean-centered
second moment `(eps - mean(eps))'(eps - mean(eps))/n` when `debiased` is
false; when `debiased` is true the entry `(i, j)` is scaled by
`n/(n - sqrt(rep_i') sqrt(rep_j'))` where `rep` is the list of per-equation
regressor counts each repeated that many times (a flat regressor-position
index, not an equation index) and `i', j'` follow numpy broadcasting
(`0` when `rep` has length 1); the product is only defined when
`len(rep) = Σ p_i` equals the number of equations or 1, and is a shape error
(`none`) otherwise. -/
theorem claim_C1_amended (c : Bool) (eps : NMat) (x : List NMat) :
    HomoskedasticWeightMatrix.sigma ⟨c, false⟩ eps x = some (rawSigmaN eps) ∧
    HomoskedasticWeightMatrix.sigma ⟨c, true⟩ eps x =
      (if (nvarRep (x.map NMat.cols)).length = eps.cols ∨
          (nvarRep (x.map NMat.cols)).length = 1 then
        some ⟨eps.cols, eps.cols, fun i j =>
          (rawSigmaN eps).entry i j *
            ((eps.rows : ℝ) /
              (eps.rows -
                Real.sqrt ((nvarRep (x.map NMat.cols)).getD
                  (bIdx (nvarRep (x.map NMat.cols)).length i) 0) *
                Real.sqrt ((nvarRep (x.map NMat.cols)).getD
                  (bIdx (nvarRep (x.map NMat.cols)).length j) 0)))⟩
      else none) :=
  ⟨hom_sigma_false c eps x, hom_sigma_true c eps x⟩

/-- C2: the `center` flag of `HomoskedasticWeightMatrix` has no effect on
`sigma` or `weight_matrix` (for any value of `debiased` and any inputs), and
the residuals are always mean-centered before forming `sigma`: `sigma` is
unchanged when the residuals are replaced by their centered version. -/
theorem claim_C2 (c c' d : Bool) (eps : NMat) (x z : List NMat)
    (sArg : Option NMat) :
    HomoskedasticWeightMatrix.sigma ⟨c, d⟩ eps x =
      HomoskedasticWeightMatrix.sigma ⟨c', d⟩ eps x ∧
    HomoskedasticWeightMatrix.weight_matrix ⟨c, d⟩ x z eps sArg =
      HomoskedasticWeightMatrix.weight_matrix ⟨c', d⟩ x z eps sArg ∧
    HomoskedasticWeightMatrix.sigma ⟨c, d⟩ eps x =
      HomoskedasticWeightMatrix.sigma ⟨c, d⟩ eps.centerCols x := by
  refine ⟨rfl, rfl, ?_⟩
  show (rawSigmaN eps).applyScale
      (HomoskedasticWeightMatrix.debias_scale ⟨c, d⟩ eps.rows x) =
    (rawSigmaN eps.centerCols).applyScale
      (HomoskedasticWeightMatrix.debias_scale ⟨c, d⟩ eps.centerCols.rows x)
  rw [rawSigmaN_centerCols, NMat.centerCols_rows]

/-- C3 (counterexample): at `x = exX` (regressor column counts `[1, 0]`),
`z = exZ` (two single-column instrument blocks) and `eps = exEps`, the
debiased `HeteroskedasticWeightMatrix.weight_matrix` has entry `(1, 1)` equal
to `2` — the 1 × 1 debias matrix `n/(n-1) = 2` is broadcast over every entry —
whereas the claim's per-equation-pair-block factor for block `(2, 2)` is
`n/(n - sqrt(p_2 p_2) sqrt(p_2 p_2)) = 2/(2-0) = 1`, leaving that entry at
`1`; so the claim as stated is false. -/
theorem claim_C3_counterexample :
    (HeteroskedasticWeightMatrix.weight_matrix ⟨false, true⟩ exX exZ exEps none).map
      (fun A => A.entry 1 1) = some 2 ∧
    (specWeightC3 false true exX exZ exEps).entry 1 1 = 1 ∧
    (HeteroskedasticWeightMatrix.weight_matrix ⟨false, true⟩ exX exZ exEps none).map
      (fun A => A.entry 1 1) ≠
      some ((specWeightC3 false true exX exZ exEps).entry 1 1) := by
  have hmom : (hetMoment false exZ exEps (exX.getD 0 NMat.zero).rows).entry 1 1 = 1 := by
    norm_num [hetMoment, hetZe, blockOf, exZ, exEps, exX, NMat.zero,
      Finset.sum_range_succ]
  have h2 : (HeteroskedasticWeightMatrix.weight_matrix ⟨false, true⟩ exX exZ exEps none).map
      (fun A => A.entry 1 1) = some 2 := by
    rw [het_weight_true, if_pos (show (nvarRep (exX.map NMat.cols)).length =
      (exZ.map NMat.cols).sum ∨ (nvarRep (exX.map NMat.cols)).length = 1 from
      Or.inr rfl)]
    simp only [Option.map_some']
    rw [hmom, show nvarRep (exX.map NMat.cols) = [1] from rfl]
    norm_num [bIdx, exX, NMat.zero, Real.sqrt_one]
  have h1 : (specWeightC3 false true exX exZ exEps).entry 1 1 = 1 := by
    show (hetMoment false exZ exEps (exX.getD 0 NMat.zero).rows).entry 1 1 *
      (((exX.getD 0 NMat.zero).rows : ℝ) /
        ((exX.getD 0 NMat.zero).rows -
          Real.sqrt (((exX.map NMat.cols).getD (blockOf (exZ.map NMat.cols) 1).1 0 : ℕ) *
            ((exX.map NMat.cols).getD (blockOf (exZ.map NMat.cols) 1).1 0 : ℕ)) *
          Real.sqrt (((exX.map NMat.cols).getD (blockOf (exZ.map NMat.cols) 1).1 0 : ℕ) *
            ((exX.map NMat.cols).getD (blockOf (exZ.map NMat.cols) 1).1 0 : ℕ)))) = 1
    rw [hmom]
    norm_num [blockOf, exX, exZ, NMat.zero, Real.sqrt_zero]
  refine ⟨h2, h1, ?_⟩
  rw [h2, h1]
  norm_num

/-- C3 (amended): the heteroskedastic weight matrix is `ze' ze / n` where
`ze` stacks `Z_i` scaled row-wise by the `i`-th residual column, the column
means of `ze` are subtracted exactly when `center` is true, and when
`debiased` is true the result is multiplied, entry-wise via numpy
broadcasting, by the `_debias_scale` matrix — whose rows and columns are
indexed by flat regressor position (each `p_i` repeated `p_i` times, single
square roots), not by equation-pair block — the product being defined only
when `Σ p_i` equals `Σ q_i` or 1 and a shape error (`none`) otherwise. -/
theorem claim_C3_amended (c : Bool) (x z : List NMat) (eps : NMat)
    (sArg : Option NMat) (t a b : ℕ) :
    (hetZe z eps (x.getD 0 NMat.zero).rows).entry t a =
      (z.getD (blockOf (z.map NMat.cols) a).1 NMat.zero).entry t
        (blockOf (z.map NMat.cols) a).2 *
        eps.entry t (blockOf (z.map NMat.cols) a).1 ∧
    (hetMoment c z eps (x.getD 0 NMat.zero).rows).entry a b =
      (∑ t ∈ Finset.range (x.getD 0 NMat.zero).rows,
        ((hetZe z eps (x.getD 0 NMat.zero).rows).entry t a -
          (if c then colMean (hetZe z eps (x.getD 0 NMat.zero).rows) a else 0)) *
        ((hetZe z eps (x.getD 0 NMat.zero).rows).entry t b -
          (if c then colMean (hetZe z eps (x.getD 0 NMat.zero).rows) b else 0))) /
        ((x.getD 0 NMat.zero).rows : ℝ) ∧
    HeteroskedasticWeightMatrix.weight_matrix ⟨c, false⟩ x z eps sArg =
      some (hetMoment c z eps (x.getD 0 NMat.zero).rows) ∧
    HeteroskedasticWeightMatrix.weight_matrix ⟨c, true⟩ x z eps sArg =
      (if (nvarRep (x.map NMat.cols)).length = (z.map NMat.cols).sum ∨
          (nvarRep (x.map NMat.cols)).length = 1 then
        some ⟨(z.map NMat.cols).sum, (z.map NMat.cols).sum, fun a b =>
          (hetMoment c z eps (x.getD 0 NMat.zero).rows).entry a b *
            (((x.getD 0 NMat.zero).rows : ℝ) /
              ((x.getD 0 NMat.zero).rows -
                Real.sqrt ((nvarRep (x.map NMat.cols)).getD
                  (bIdx (nvarRep (x.map NMat.cols)).length a) 0) *
                Real.sqrt ((nvarRep (x.map NMat.cols)).getD
                  (bIdx (nvarRep (x.map NMat.cols)).length b) 0)))⟩
      else none) :=
  ⟨rfl, rfl, het_weight_false c x z eps sArg, het_weight_true c x z eps sArg⟩

/-- C4: when `debiased` is true, `_debias_scale` returns the
`(Σ p_i) × (Σ p_i)` matrix obtained by repeating each equation's regressor
count `p_i` times before the outer product of square roots; consequently the
in-place elementwise multiply in `HomoskedasticWeightMatrix.sigma` (a
`k × k` matrix, `k` = number of equations) succeeds exactly when `Σ p_i`
equals `k` or 1, the one in `HeteroskedasticWeightMatrix.weight_matrix` (a
`(Σ q_i) × (Σ q_i)` matrix) succeeds exactly when `Σ p_i` equals `Σ q_i` or
1, and every other shape yields a shape error rather than a result. -/
theorem claim_C4 (nobs : ℕ) (c : Bool) (eps : NMat) (x z : List NMat)
    (sArg : Option NMat) :
    HomoskedasticWeightMatrix.debias_scale ⟨c, true⟩ nobs x =
      .mat (scaleMatOf nobs x) ∧
    (scaleMatOf nobs x).rows = (x.map NMat.cols).sum ∧
    (scaleMatOf nobs x).cols = (x.map NMat.cols).sum ∧
    ((HomoskedasticWeightMatrix.sigma ⟨c, true⟩ eps x).isSome = true ↔
      ((x.map NMat.cols).sum = eps.cols ∨ (x.map NMat.cols).sum = 1)) ∧
    ((HeteroskedasticWeightMatrix.weight_matrix ⟨c, true⟩ x z eps sArg).isSome = true ↔
      ((x.map NMat.cols).sum = (z.map NMat.cols).sum ∨
        (x.map NMat.cols).sum = 1)) := by
  refine ⟨rfl, nvarRep_length _, nvarRep_length _, ?_, ?_⟩
  · rw [hom_sigma_true, isSome_ite_some, nvarRep_length]
  · rw [het_weight_true, isSome_ite_some, nvarRep_length]

/-- C5: the Parzen kernel weight at lag `i` with bandwidth `bw` and
`z = i/(bw+1)` is `1 - 6 z^2 + 6 z^3` when `z ≤ 1/2` (equivalently
`2 i ≤ bw + 1`) and `2 (1 - z)^3` otherwise — this covers every lag of
`kernel_weight_parzen 10` in particular; but the reference formula written in
the repository's own `test_kernel_parzen` computes `2 * (1 - z ** 3)` for
`z > 0.5` and therefore disagrees with the spec's (and the claim's) value at
`bw = 10, i = 6` (`1.675... ≠ 0.187...`), so the test, which asserts exact
equality with `kernel_weight_parzen(10)`, fails against any spec-conforming
implementation: the test's branch is a slip for `2 * (1 - z) ** 3`. -/
theorem claim_C5 :
    (∀ bw i : ℕ,
      kernel_weight_parzen bw i =
        (if 2 * i ≤ bw + 1 then
          1 - 6 * ((i : ℝ) / ((bw : ℝ) + 1)) ^ 2 +
            6 * ((i : ℝ) / ((bw : ℝ) + 1)) ^ 3
        else 2 * (1 - (i : ℝ) / ((bw : ℝ) + 1)) ^ 3)) ∧
    kernel_weight_parzen 10 6 = 2 * (1 - (6 : ℝ) / 11) ^ 3 ∧
    testParzenRefW 10 6 = 2 * (1 - ((6 : ℝ) / 11) ^ 3) ∧
    testParzenRefW 10 6 ≠ kernel_weight_parzen 10 6 := by
  have hgen : ∀ bw i : ℕ,
      kernel_weight_parzen bw i =
        (if 2 * i ≤ bw + 1 then
          1 - 6 * ((i : ℝ) / ((bw : ℝ) + 1)) ^ 2 +
            6 * ((i : ℝ) / ((bw : ℝ) + 1)) ^ 3
        else 2 * (1 - (i : ℝ) / ((bw : ℝ) + 1)) ^ 3) := by
    intro bw i
    have hpos : (0 : ℝ) < (bw : ℝ) + 1 := by positivity
    have hiff : ((i : ℝ) / ((bw : ℝ) + 1) ≤ 1 / 2) ↔ (2 * i ≤ bw + 1) := by
      rw [div_le_div_iff₀ hpos (by norm_num : (0 : ℝ) < 2), one_mul, mul_comm]
      exact_mod_cast Iff.rfl
    simp only [kernel_weight_parzen, hiff]
  have h1 : kernel_weight_parzen 10 6 = 2 * (1 - (6 : ℝ) / 11) ^ 3 := by
    rw [hgen]
    norm_num
  have h2 : testParzenRefW 10 6 = 2 * (1 - ((6 : ℝ) / 11) ^ 3) := by
    rw [testParzenRefW]
    norm_num
  refine ⟨hgen, h1, h2, ?_⟩
  rw [h1, h2]
  norm_num

theorem sOf_bw_zero {n p q : ℕ} (wf : ℕ → ℕ → ℝ) (debiased : Bool)
    (x : Matrix (Fin n) (Fin p) ℝ) (y : Fin n → ℝ)
    (z : Matrix (Fin n) (Fin q) ℝ) (β : Fin p → ℝ) :
    KernelCovariance.sOf wf 0 debiased x y z β =
      HeteroskedasticCovariance.s debiased x y z β := by
  have hsum : ∀ a b : Fin p,
      (∑ t ∈ Finset.range n, gPad x y z β t a * gPad x y z β t b) =
        ∑ t : Fin n, scoreOf x y z β t a * scoreOf x y z β t b := by
    intro a b
    rw [Finset.sum_range fun t => gPad x y z β t a * gPad x y z β t b]
    refine Finset.sum_congr rfl fun t _ => ?_
    simp [gPad, t.isLt]
  unfold KernelCovariance.sOf HeteroskedasticCovariance.s
  cases debiased
  · simp only [Bool.false_eq_true, if_false]
    funext a b
    simp [hsum a b]
  · simp only [if_true]
    funext a b
    simp only [show (Finset.Icc 1 0 : Finset ℕ) = ∅ from rfl, Finset.sum_empty,
      add_zero, hsum a b]
    rcases eq_or_ne (n : ℝ) 0 with hn | hn
    · have hn0 : n = 0 := by exact_mod_cast hn
      subst hn0
      simp
    · rw [div_mul_div_comm, mul_comm ((n : ℝ) - (p : ℝ)) (n : ℝ),
        mul_div_mul_left _ _ hn]

/-- C6: for every accepted kernel name (and any inputs and `debiased` flag),
`KernelCovariance` with bandwidth 0 produces exactly the moment matrix `s` of
`HeteroskedasticCovariance` on the same inputs: with no lags the HAC
estimator degenerates to the outer-product-of-scores estimator. -/
theorem claim_C6 {n p q : ℕ} (name : String) (wf : ℕ → ℕ → ℝ)
    (h : kernelWeightFun name = some wf) (debiased : Bool)
    (x : Matrix (Fin n) (Fin p) ℝ) (y : Fin n → ℝ)
    (z : Matrix (Fin n) (Fin q) ℝ) (β : Fin p → ℝ) :
    KernelCovariance.s x y z β name 0 debiased =
      some (HeteroskedasticCovariance.s debiased x y z β) := by
  rw [KernelCovariance.s, h, Option.map_some', sOf_bw_zero]

/-- C6 (witness): instantiation at the kernel name "bartlett" and concrete
1-observation data. -/
theorem claim_C6_witness :
    kernelWeightFun "bartlett" = some kernel_weight_bartlett ∧
    KernelCovariance.s (0 : Matrix (Fin 1) (Fin 1) ℝ) (fun _ => 0)
      (0 : Matrix (Fin 1) (Fin 1) ℝ) (fun _ => 0) "bartlett" 0 false =
      some (HeteroskedasticCovariance.s false (0 : Matrix (Fin 1) (Fin 1) ℝ)
        (fun _ => 0) (0 : Matrix (Fin 1) (Fin 1) ℝ) (fun _ => 0)) :=
  ⟨rfl, claim_C6 "bartlett" kernel_weight_bartlett rfl false 0 (fun _ => 0) 0
    (fun _ => 0)⟩

/-- C7: with `debiased = True`, the clustered moment matrix is the sum over
clusters of outer products of each cluster's total score vector, divided by
`n`, then multiplied by `((n-1)/(n-p))` and then by `(G/(G-1))` where `G` is
the number of distinct clusters; and `cov` is the sandwich
`v⁻¹ s v⁻¹ / n`. -/
theorem claim_C7 {n p q : ℕ} (x : Matrix (Fin n) (Fin p) ℝ) (y : Fin n → ℝ)
    (z : Matrix (Fin n) (Fin q) ℝ) (β : Fin p → ℝ) (cl : Fin n → ℕ)
    (kappa : ℝ) :
    OneWayClusteredCovariance.s true x y z β cl = (fun a b =>
      ((∑ g ∈ clusterGroups cl,
        (∑ t ∈ Finset.univ.filter (fun t => cl t = g),
          xhatOf x z t a * residOf x y β t) *
        (∑ t ∈ Finset.univ.filter (fun t => cl t = g),
          xhatOf x z t b * residOf x y β t)) / (n : ℝ)) *
        (((n : ℝ) - 1) / ((n : ℝ) - (p : ℝ))) *
        (((clusterGroups cl).card : ℝ) / (((clusterGroups cl).card : ℝ) - 1))) ∧
    OneWayClusteredCovariance.cov true kappa x y z β cl =
      ((n : ℝ))⁻¹ • ((vOf kappa x z)⁻¹ *
        OneWayClusteredCovariance.s true x y z β cl * (vOf kappa x z)⁻¹) :=
  ⟨rfl, rfl⟩

/-- C8 (counterexample): the config mapping of the system weight-matrix
estimator `HomoskedasticWeightMatrix` (from `gmm.py`) has no `'name'` key at
all — it is exactly `{'center': ..., 'debiased': ...}` — so the claim that
every estimator's config contains `'name'` is false. -/
theorem claim_C8_counterexample :
    configName (HomoskedasticWeightMatrix.config ⟨false, false⟩) = none ∧
    "name" ∉ configKeys (HomoskedasticWeightMatrix.config ⟨false, false⟩) := by
  refine ⟨rfl, ?_⟩
  decide

/-- C8 (amended): every estimator's config contains the key `'debiased'`; the
four single-equation covariance variants additionally carry
`config['name']` equal to the canonical class identifier string; the system
weight-matrix estimators' configs carry `'center'` and `'debiased'` but no
`'name'` key. -/
theorem claim_C8_amended (d c : Bool) (cl : List ℕ) (kname : String) (bw : ℝ) :
    configName (HomoskedasticCovariance.config d) =
      some "HomoskedasticCovariance" ∧
    "debiased" ∈ configKeys (HomoskedasticCovariance.config d) ∧
    configName (HeteroskedasticCovariance.config d) =
      some "HeteroskedasticCovariance" ∧
    "debiased" ∈ configKeys (HeteroskedasticCovariance.config d) ∧
    configName (OneWayClusteredCovariance.config d cl) =
      some "OneWayClusteredCovariance" ∧
    "debiased" ∈ configKeys (OneWayClusteredCovariance.config d cl) ∧
    configName (KernelCovariance.config d kname bw) = some "KernelCovariance" ∧
    "debiased" ∈ configKeys (KernelCovariance.config d kname bw) ∧
    "debiased" ∈ configKeys (HomoskedasticWeightMatrix.config ⟨c, d⟩) ∧
    "center" ∈ configKeys (HomoskedasticWeightMatrix.config ⟨c, d⟩) ∧
    configName (HomoskedasticWeightMatrix.config ⟨c, d⟩) = none ∧
    "debiased" ∈ configKeys (HeteroskedasticWeightMatrix.config ⟨c, d⟩) ∧
    configName (HeteroskedasticWeightMatrix.config ⟨c, d⟩) = none := by
  refine ⟨rfl, ?_, rfl, ?_, rfl, ?_, rfl, ?_, ?_, ?_, rfl, ?_, rfl⟩ <;>
    simp [configKeys, HomoskedasticCovariance.config,
      HeteroskedasticCovariance.config, OneWayClusteredCovariance.config,
      KernelCovariance.config, HomoskedasticWeightMatrix.config,
      HeteroskedasticWeightMatrix.config]

/-- C9: for every single-equation covariance estimator, a row-count mismatch
among `x`, `y`, `z` or a params-length mismatch makes the constructor return
a `ValidationError` (no estimator object); and for
`OneWayClusteredCovariance`, a cluster vector whose length differs from the
observation count likewise yields a `ValidationError` at construction. -/
theorem claim_C9 (x y z : NMat) (params : List ℝ) (clusters : List ℕ)
    (name : String) (bw : Option ℝ) (d : Bool) (kappa : ℝ) :
    (¬ dimsOK x y z params →
      HomoskedasticCovariance.create x y z params d kappa =
        .error .validation ∧
      HeteroskedasticCovariance.create x y z params d kappa =
        .error .validation ∧
      OneWayClusteredCovariance.create x y z params clusters d kappa =
        .error .validation ∧
      KernelCovariance.create x y z params name bw d = .error .validation) ∧
    (dimsOK x y z params → clusters.length ≠ x.rows →
      OneWayClusteredCovariance.create x y z params clusters d kappa =
        .error .validation) := by
  constructor
  · intro h
    refine ⟨?_, ?_, ?_, ?_⟩ <;>
      simp [HomoskedasticCovariance.create, HeteroskedasticCovariance.create,
        OneWayClusteredCovariance.create, KernelCovariance.create, h]
  · intro h1 h2
    simp [OneWayClusteredCovariance.create, h1, h2]

/-- C9 (witness): a 2-row `x` with a 3-row `y` (and a matching-shape case
with a length-1 cluster vector for 2 observations). -/
theorem claim_C9_witness :
    (¬ dimsOK exA exB exA [0]) ∧
    HomoskedasticCovariance.create exA exB exA [0] false 1 =
      .error .validation ∧
    HeteroskedasticCovariance.create exA exB exA [0] false 1 =
      .error .validation ∧
    OneWayClusteredCovariance.create exA exB exA [0] [0] false 1 =
      .error .validation ∧
    KernelCovariance.create exA exB exA [0] "bartlett" none false =
      .error .validation ∧
    dimsOK exA exA exA [0] ∧ ([0] : List ℕ).length ≠ exA.rows ∧
    OneWayClusteredCovariance.create exA exA exA [0] [0] false 1 =
      .error .validation := by
  have h1 : ¬ dimsOK exA exB exA [0] := by decide
  have h2 : dimsOK exA exA exA [0] := by decide
  have h3 : ([0] : List ℕ).length ≠ exA.rows := by decide
  obtain ⟨ha, hb, hc, hd⟩ :=
    (claim_C9 exA exB exA [0] [0] "bartlett" none false 1).1 h1
  exact ⟨h1, ha, hb, hc, hd, h2, h3,
    (claim_C9 exA exA exA [0] [0] "bartlett" none false 1).2 h2 h3⟩

theorem kernelQC_c_pos (name : String) (q : ℕ) (c : ℝ)
    (h : kernelQC name = some (q, c)) : 0 < c := by
  unfold kernelQC at h
  split_ifs at h <;>
    simp only [Option.some.injEq, Prod.mk.injEq, reduceCtorEq] at h <;>
    rw [← h.2] <;> norm_num

/-- C10: constructing `KernelCovariance` with an unknown kernel name (on
otherwise valid inputs) yields a `ValueError` (`ConfigurationError`), as does
calling `kernel_optimal_bandwidth` with an unknown name; and for every
recognized name and non-degenerate score series (nonempty `u` with nonzero
plug-in sums `s(0)` and `s(q)`), `kernel_optimal_bandwidth` returns a
strictly positive bandwidth. -/
theorem claim_C10 (bad good : String) (x y z : NMat) (params : List ℝ)
    (bw : Option ℝ) (d : Bool) (u : List ℝ) (qk : ℕ) (ck : ℝ) :
    (kernelWeightFun bad = none → dimsOK x y z params →
      KernelCovariance.create x y z params bad bw d =
        .error .configuration) ∧
    (kernelQC bad = none →
      kernel_optimal_bandwidth u bad = .error .configuration) ∧
    (kernelQC good = some (qk, ck) → u ≠ [] → s0Of u ≠ 0 → sqOf qk u ≠ 0 →
      kernel_optimal_bandwidth u good = .ok (bandwidthVal qk ck u) ∧
      0 < bandwidthVal qk ck u) := by
  refine ⟨?_, ?_, ?_⟩
  · intro h hd
    simp [KernelCovariance.create, hd, h]
  · intro h
    simp [kernel_optimal_bandwidth, h]
  · intro h hne hs0 hsq
    have hc : 0 < ck := kernelQC_c_pos good qk ck h
    have hn : 0 < (u.length : ℝ) := by
      exact_mod_cast List.length_pos.mpr hne
    refine ⟨by simp [kernel_optimal_bandwidth, h], ?_⟩
    have hdiv : sqOf qk u / s0Of u ≠ 0 := div_ne_zero hsq hs0
    have hbase : 0 < (sqOf qk u / s0Of u) ^ 2 :=
      lt_of_le_of_ne (sq_nonneg _) (Ne.symm (pow_ne_zero 2 hdiv))
    exact mul_pos (mul_pos hc (Real.rpow_pos_of_pos hbase _))
      (Real.rpow_pos_of_pos hn _)

/-- C10 (witness): the unknown name "cosine" is rejected by both the
constructor and the bandwidth selector, and on the series `[1, 1]` with the
Bartlett kernel the selected bandwidth is strictly positive. -/
theorem claim_C10_witness :
    kernelWeightFun "cosine" = none ∧ dimsOK exC exC exC [0] ∧
    KernelCovariance.create exC exC exC [0] "cosine" none false =
      .error .configuration ∧
    kernelQC "cosine" = none ∧
    kernel_optimal_bandwidth [1, 1] "cosine" = .error .configuration ∧
    kernelQC "bartlett" = some (1, 1.1447) ∧ ([1, 1] : List ℝ) ≠ [] ∧
    s0Of [1, 1] ≠ 0 ∧ sqOf 1 [1, 1] ≠ 0 ∧
    kernel_optimal_bandwidth [1, 1] "bartlett" =
      .ok (bandwidthVal 1 1.1447 [1, 1]) ∧
    0 < bandwidthVal 1 1.1447 [1, 1] := by
  have hkw : kernelWeightFun "cosine" = none := rfl
  have hqc : kernelQC "cosine" = none := rfl
  have hb : kernelQC "bartlett" = some (1, 1.1447) := rfl
  have hdims : dimsOK exC exC exC [0] := by decide
  have hne : ([1, 1] : List ℝ) ≠ [] := by simp
  have ha0 : autocovL [1, 1] 0 = 1 := by
    rw [autocovL]
    norm_num [Finset.sum_Ico_succ_top, Finset.sum_range_succ, List.getD]
  have ha1 : autocovL [1, 1] 1 = 1 / 2 := by
    rw [autocovL]
    norm_num [Finset.sum_Ico_succ_top, Finset.sum_range_succ, List.getD]
  have hs0 : s0Of [1, 1] ≠ 0 := by
    rw [s0Of]
    norm_num [show ([1, 1] : List ℝ).length - 1 = 1 from rfl, ha0, ha1]
  have hsq : sqOf 1 [1, 1] ≠ 0 := by
    rw [sqOf]
    norm_num [show ([1, 1] : List ℝ).length - 1 = 1 from rfl, ha1]
  obtain ⟨hok, hpos⟩ :=
    (claim_C10 "cosine" "bartlett" exC exC exC [0] none false [1, 1] 1
      1.1447).2.2 hb hne hs0 hsq
  exact ⟨hkw, hdims,
    (claim_C10 "cosine" "bartlett" exC exC exC [0] none false [1, 1] 1
      1.1447).1 hkw hdims,
    hqc,
    (claim_C10 "cosine" "bartlett" exC exC exC [0] none false [1, 1] 1
      1.1447).2.1 hqc,
    hb, hne, hs0, hsq, hok, hpos⟩

end
